import Mathlib

/-!
A verification development for the in-process workflow engine (package `pl`).

The engine schedules a DAG of Steps: `preflight` validates the initial
statuses and detects cycles by iterative topological scanning, `tick`
promotes Pending steps whose upstreams are all terminated (gated by a
Condition over upstream statuses and a When predicate over the ambient
context), and each launched step runs a task that first applies the data
flow of its incoming links (`makeDoForStep`) and then invokes the step's
`Do`, optionally under the bounded-retry harness (`RetryOption.Run`).

The embedding below is shallow: steps are identified by natural numbers,
statuses are an inductive type, the dependency map keyed by step identity
becomes a function from identifiers to link lists, user code (flow actions
and `Do` bodies) is represented by its observable results, and the
concurrent scheduler loop becomes a small-step event relation whose
interleavings cover the interleavings of the goroutine-based original.
Real-time features (timeouts, backoff waiting periods) are out of scope of
the shallow embedding; the retry harness is modelled with the timeout
deadline never reached and the backoff waits erased, which is the only part
of their behavior the claims mention.
-/

namespace FL

/-- Ambient context handed to `Run` and to the `When` predicates. The
scheduler never inspects it, it only passes it along, so any type works;
we fix natural numbers so that concrete runs stay decidable. -/
abbrev Ctx := Nat

/-- StepStatus (part_004 / part_008): the per-step state machine
`Pending -> Running | Canceled | Skipped`, `Running -> Succeeded | Failed`,
plus the private `scanned` marker used only inside `preflight`. -/
inductive StepStatus where
  | pending
  | running
  | failed
  | succeeded
  | canceled
  | skipped
  | scanned
deriving DecidableEq

/-- StepStatus.IsTerminated (part_004): Failed, Succeeded, Canceled or
Skipped. -/
def StepStatus.IsTerminated (s : StepStatus) : Bool :=
  s == .failed || s == .succeeded || s == .canceled || s == .skipped

/-- Errors produced by user code and by the engine. `base` stands for an
arbitrary user error (or panic payload); `flow` is `ErrFlow{Err, From}`
from part_008, wrapping the flow failure together with the identity of the
link's Dependee (`none` for an Input link without upstream). -/
inductive GoErr where
  | base (code : Nat)
  | flow (err : GoErr) (dependee : Option Nat)
deriving DecidableEq

/-- Result of running one piece of user code (a flow action or a `Do`
body): it returns nil, returns an error, or panics with a payload. -/
inductive ExecResult where
  | ok
  | err (e : GoErr)
  | panicked (e : GoErr)
deriving DecidableEq

/-- Modelled from the spec: `catchPanicAsError` is used by
`makeDoForStep` (part_008) but its body is not among the provided source
files. Per the spec, panics inside `Do` or inside a flow action are
recovered and reified as errors and never tear down the scheduler; an
ordinary error return passes through unchanged. -/
def catchPanicAsError : ExecResult → Option GoErr
  | .ok => none
  | .err e => some e
  | .panicked e => some e

/-- Condition `Always` (part_004): run regardless of upstream statuses.
Conditions receive the upstream reporters; only their statuses are read,
so the embedding passes the status list directly. -/
def Always (deps : List StepStatus) : Bool :=
  true

/-- Condition `Succeeded` (part_004): false as soon as some upstream is
Failed or Canceled, true otherwise (Skipped counts as success). -/
def Succeeded : List StepStatus → Bool
  | [] => true
  | d :: rest =>
    match d with
    | .failed => false
    | .canceled => false
    | _ => Succeeded rest

/-- Loop body of condition `Failed` (part_004), threading the `hasFailed`
accumulator exactly like the Go loop. -/
def FailedAux : List StepStatus → Bool → Bool
  | [], hasFailed => hasFailed
  | d :: rest, hasFailed =>
    match d with
    | .failed => FailedAux rest true
    | .canceled => false
    | _ => FailedAux rest hasFailed

/-- Condition `Failed` (part_004): at least one upstream Failed and none
Canceled. -/
def Failed (deps : List StepStatus) : Bool :=
  FailedAux deps false

/-- Condition `SucceededOrFailed` (part_004): true unless some upstream is
Canceled. -/
def SucceededOrFailed : List StepStatus → Bool
  | [] => true
  | d :: rest =>
    match d with
    | .canceled => false
    | _ => SucceededOrFailed rest

/-- Condition `Never` (part_004): cancel regardless. -/
def Never (deps : List StepStatus) : Bool :=
  false

/-- DefaultCondition (part_004): `Succeeded`. -/
def DefaultCondition : List StepStatus → Bool := Succeeded

/-- DefaultWhenFunc: return true (never skip). -/
def DefaultWhenFunc : Ctx → Bool := fun _ => true

/-- A link (stage.go, part_008 generation): an incoming edge of a
depender. `dependee` is the optional upstream step; `hasFlow` records
whether the link carries a flow action (`Flow != nil`). The behavior of
the flow action itself lives in the workflow environment. -/
structure Link where
  dependee : Option Nat
  hasFlow : Bool
deriving DecidableEq

/-- Gate applied by `makeDoForStep` (part_008) before running a link's
flow: flow data only when the Dependee is Succeeded or Failed, or when the
link has no Dependee (it is an Input). -/
def flowGate (status : Nat → StepStatus) (l : Link) : Bool :=
  match l.dependee with
  | none => true
  | some u => status u == .succeeded || status u == .failed

/-- Observable events of one step-task attempt: link `i`'s flow action ran,
or the step's `Do` ran. -/
inductive TaskEv where
  | flowEv (i : Nat)
  | doEv
deriving DecidableEq

/-- Body of `makeDoForStep` (part_008), recursing over the remaining links
with `i` the index of the head link. `flowRes i` is the outcome of link
`i`'s flow action, `doRes` the outcome of the step's `Do`. Besides the
final error the embedding records the trace of user-code invocations, in
order. A failing (or panicking) flow action aborts the attempt with
`ErrFlow` wrapping the link's Dependee and `Do` is not reached. -/
def doForStepAux (status : Nat → StepStatus) (flowRes : Nat → ExecResult)
    (doRes : ExecResult) : List Link → Nat → List TaskEv × Option GoErr
  | [], _ => ([TaskEv.doEv], catchPanicAsError doRes)
  | l :: rest, i =>
    if flowGate status l then
      if l.hasFlow then
        match catchPanicAsError (flowRes i) with
        | some e => ([TaskEv.flowEv i], some (GoErr.flow e l.dependee))
        | none =>
          let r := doForStepAux status flowRes doRes rest (i + 1)
          (TaskEv.flowEv i :: r.1, r.2)
      else doForStepAux status flowRes doRes rest (i + 1)
    else doForStepAux status flowRes doRes rest (i + 1)

/-- makeDoForStep (part_008): the panic-free task body for one attempt of a
step, applying the flow of each link in insertion order and then invoking
`Do`. -/
def makeDoForStep (links : List Link) (status : Nat → StepStatus)
    (flowRes : Nat → ExecResult) (doRes : ExecResult) :
    List TaskEv × Option GoErr :=
  doForStepAux status flowRes doRes links 0

/-- Indices (from `i`) of the links whose flow action fires: the link
passes `flowGate` and actually carries a flow action. -/
def appliedIdxAux (status : Nat → StepStatus) : List Link → Nat → List Nat
  | [], _ => []
  | l :: rest, i =>
    if flowGate status l then
      if l.hasFlow then i :: appliedIdxAux status rest (i + 1)
      else appliedIdxAux status rest (i + 1)
    else appliedIdxAux status rest (i + 1)

/-- Indices of the links of a step whose flow action fires, in insertion
order. -/
def appliedIdx (status : Nat → StepStatus) (links : List Link) : List Nat :=
  appliedIdxAux status links 0

theorem appliedIdxAux_le (status : Nat → StepStatus) :
    ∀ (links : List Link) (i j : Nat), j ∈ appliedIdxAux status links i → i ≤ j := by
  intro links
  induction links with
  | nil => intro i j h; simp [appliedIdxAux] at h
  | cons l rest ih =>
    intro i j h
    simp only [appliedIdxAux] at h
    by_cases hg : flowGate status l
    · by_cases hf : l.hasFlow
      · simp [hg, hf] at h
        rcases h with h | h
        · omega
        · have := ih (i + 1) j h; omega
      · simp [hg, hf] at h
        have := ih (i + 1) j h; omega
    · simp [hg] at h
      have := ih (i + 1) j h; omega

theorem doForStepAux_all_ok (status : Nat → StepStatus)
    (flowRes : Nat → ExecResult) (doRes : ExecResult) :
    ∀ (links : List Link) (i : Nat),
      (∀ j ∈ appliedIdxAux status links i, catchPanicAsError (flowRes j) = none) →
      doForStepAux status flowRes doRes links i
        = ((appliedIdxAux status links i).map TaskEv.flowEv ++ [TaskEv.doEv],
           catchPanicAsError doRes) := by
  intro links
  induction links with
  | nil => intro i _; simp [doForStepAux, appliedIdxAux]
  | cons l rest ih =>
    intro i hok
    by_cases hg : flowGate status l
    · by_cases hf : l.hasFlow
      · have hi : catchPanicAsError (flowRes i) = none := by
          apply hok
          simp [appliedIdxAux, hg, hf]
        have hrest : ∀ j ∈ appliedIdxAux status rest (i + 1),
            catchPanicAsError (flowRes j) = none := by
          intro j hj
          apply hok
          simp [appliedIdxAux, hg, hf]
          right; exact hj
        simp only [doForStepAux, appliedIdxAux, hg, hf, if_true, hi]
        rw [ih (i + 1) hrest]
        simp
      · have hrest : ∀ j ∈ appliedIdxAux status rest (i + 1),
            catchPanicAsError (flowRes j) = none := by
          intro j hj
          apply hok
          simpa [appliedIdxAux, hg, hf] using hj
        simp only [doForStepAux, appliedIdxAux, hg, hf, if_true, if_false]
        exact ih (i + 1) hrest
    · have hrest : ∀ j ∈ appliedIdxAux status rest (i + 1),
          catchPanicAsError (flowRes j) = none := by
        intro j hj
        apply hok
        simpa [appliedIdxAux, hg] using hj
      simp only [doForStepAux, appliedIdxAux, hg, if_false]
      exact ih (i + 1) hrest

/-- C1: for a launched step's task (one attempt), the flow actions that
run are exactly those of the links passing the Succeeded/Failed-or-no-
upstream gate, they run in insertion order, and the step's `Do` runs
after all of them. Stated for attempts in which no fired flow action
fails, which is the situation the claim describes (a failing flow action
is claim C4's territory and aborts the remaining links and `Do`). -/
theorem c1_flow_order (links : List Link) (status : Nat → StepStatus)
    (flowRes : Nat → ExecResult) (doRes : ExecResult)
    (hok : ∀ j ∈ appliedIdx status links, catchPanicAsError (flowRes j) = none) :
    (makeDoForStep links status flowRes doRes).1
      = (appliedIdx status links).map TaskEv.flowEv ++ [TaskEv.doEv] := by
  unfold makeDoForStep appliedIdx
  rw [doForStepAux_all_ok status flowRes doRes links 0 hok]

theorem doForStepAux_first_bad (status : Nat → StepStatus)
    (flowRes : Nat → ExecResult) (doRes : ExecResult) (i : Nat) (e : GoErr) :
    ∀ (links : List Link) (i0 : Nat),
      i ∈ appliedIdxAux status links i0 →
      (∀ j ∈ appliedIdxAux status links i0, j < i → catchPanicAsError (flowRes j) = none) →
      catchPanicAsError (flowRes i) = some e →
      ∃ l, links.get? (i - i0) = some l ∧
        (doForStepAux status flowRes doRes links i0).2 = some (GoErr.flow e l.dependee) ∧
        TaskEv.doEv ∉ (doForStepAux status flowRes doRes links i0).1 := by
  intro links
  induction links with
  | nil => intro i0 hmem; simp [appliedIdxAux] at hmem
  | cons l rest ih =>
    intro i0 hmem hfirst herr
    by_cases hg : flowGate status l
    · by_cases hf : l.hasFlow
      · by_cases hii : i = i0
        · subst hii
          refine ⟨l, by simp, ?_, ?_⟩
          · simp only [doForStepAux, hg, hf, if_true, herr]
          · simp only [doForStepAux, hg, hf, if_true, herr]
            simp
        · have hmem' : i ∈ appliedIdxAux status rest (i0 + 1) := by
            simp [appliedIdxAux, hg, hf] at hmem
            rcases hmem with h | h
            · exact absurd h hii
            · exact h
          have hlt : i0 < i := by
            have := appliedIdxAux_le status rest (i0 + 1) i hmem'
            omega
          have hhead : catchPanicAsError (flowRes i0) = none := by
            apply hfirst i0 _ hlt
            simp [appliedIdxAux, hg, hf]
          have hfirst' : ∀ j ∈ appliedIdxAux status rest (i0 + 1), j < i →
              catchPanicAsError (flowRes j) = none := by
            intro j hj hji
            apply hfirst j _ hji
            simp [appliedIdxAux, hg, hf]
            right; exact hj
          obtain ⟨l', hget, hres, hdo⟩ := ih (i0 + 1) hmem' hfirst' herr
          refine ⟨l', ?_, ?_, ?_⟩
          · have : i - i0 = (i - (i0 + 1)) + 1 := by omega
            rw [this]
            simpa using hget
          · simp only [doForStepAux, hg, hf, if_true, hhead]
            exact hres
          · simp only [doForStepAux, hg, hf, if_true, hhead]
            simp only [List.mem_cons, not_or]
            exact ⟨by simp, hdo⟩
      · have hmem' : i ∈ appliedIdxAux status rest (i0 + 1) := by
          simpa [appliedIdxAux, hg, hf] using hmem
        have hfirst' : ∀ j ∈ appliedIdxAux status rest (i0 + 1), j < i →
            catchPanicAsError (flowRes j) = none := by
          intro j hj hji
          apply hfirst j _ hji
          simpa [appliedIdxAux, hg, hf] using hj
        obtain ⟨l', hget, hres, hdo⟩ := ih (i0 + 1) hmem' hfirst' herr
        have hlt : i0 + 1 ≤ i := appliedIdxAux_le status rest (i0 + 1) i hmem'
        refine ⟨l', ?_, ?_, ?_⟩
        · have : i - i0 = (i - (i0 + 1)) + 1 := by omega
          rw [this]
          simpa using hget
        · simp only [doForStepAux, hg, hf, if_true, if_false]
          exact hres
        · simp only [doForStepAux, hg, hf, if_true, if_false]
          exact hdo
    · have hmem' : i ∈ appliedIdxAux status rest (i0 + 1) := by
        simpa [appliedIdxAux, hg] using hmem
      have hfirst' : ∀ j ∈ appliedIdxAux status rest (i0 + 1), j < i →
          catchPanicAsError (flowRes j) = none := by
        intro j hj hji
        apply hfirst j _ hji
        simpa [appliedIdxAux, hg] using hj
      obtain ⟨l', hget, hres, hdo⟩ := ih (i0 + 1) hmem' hfirst' herr
      have hlt : i0 + 1 ≤ i := appliedIdxAux_le status rest (i0 + 1) i hmem'
      refine ⟨l', ?_, ?_, ?_⟩
      · have : i - i0 = (i - (i0 + 1)) + 1 := by omega
        rw [this]
        simpa using hget
      · simp only [doForStepAux, hg, if_false]
        exact hres
      · simp only [doForStepAux, hg, if_false]
        exact hdo

/-- C4: if the first fired flow action that fails (returns an error or
panics) is the one of link `i`, the attempt's result is an `ErrFlow`
wrapping that link's Dependee — this is the value `runStep` records for
the step — and the step's `Do` is not invoked in that attempt. -/
theorem c4_flow_error (links : List Link) (status : Nat → StepStatus)
    (flowRes : Nat → ExecResult) (doRes : ExecResult) (i : Nat) (e : GoErr)
    (hmem : i ∈ appliedIdx status links)
    (hfirst : ∀ j ∈ appliedIdx status links, j < i → catchPanicAsError (flowRes j) = none)
    (herr : catchPanicAsError (flowRes i) = some e) :
    ∃ l, links.get? i = some l ∧
      (makeDoForStep links status flowRes doRes).2 = some (GoErr.flow e l.dependee) ∧
      TaskEv.doEv ∉ (makeDoForStep links status flowRes doRes).1 := by
  have h := doForStepAux_first_bad status flowRes doRes i e links 0 hmem hfirst herr
  simpa [makeDoForStep] using h

/-- Witness for C4 at a concrete input: the second link's flow panics
while its upstream Failed; the attempt records `ErrFlow` wrapping upstream
9 and `Do` never runs. -/
theorem c4_flow_error_witness :
    (makeDoForStep [⟨none, true⟩, ⟨some 9, true⟩]
        (fun _ => .failed)
        (fun j => if j = 1 then ExecResult.panicked (GoErr.base 3) else ExecResult.ok)
        ExecResult.ok).2 = some (GoErr.flow (GoErr.base 3) (some 9)) ∧
    TaskEv.doEv ∉ (makeDoForStep [⟨none, true⟩, ⟨some 9, true⟩]
        (fun _ => .failed)
        (fun j => if j = 1 then ExecResult.panicked (GoErr.base 3) else ExecResult.ok)
        ExecResult.ok).1 := by
  obtain ⟨l, hget, hres, hdo⟩ := c4_flow_error [⟨none, true⟩, ⟨some 9, true⟩]
    (fun _ => .failed)
    (fun j => if j = 1 then ExecResult.panicked (GoErr.base 3) else ExecResult.ok)
    ExecResult.ok 1 (GoErr.base 3) (by decide) (by decide) (by decide)
  have hl : l = (⟨some 9, true⟩ : Link) := by
    simp at hget
    exact hget.symm
  subst hl
  exact ⟨hres, hdo⟩

/-- C8: on an empty upstream list, `Always`, `Succeeded` and
`SucceededOrFailed` return true while `Failed` and `Never` return
false. -/
theorem c8_empty_conditions :
    Always [] = true ∧ Succeeded [] = true ∧ SucceededOrFailed [] = true ∧
      Failed [] = false ∧ Never [] = false := by
  refine ⟨rfl, rfl, rfl, rfl, rfl⟩

/-- Witness for C1 at a concrete input: two links, one Input link without
upstream and one whose upstream Succeeded, both flows fine; the trace is
flow 0, flow 1, then Do. -/
theorem c1_flow_order_witness :
    (makeDoForStep
        [⟨none, true⟩, ⟨some 7, true⟩, ⟨some 8, false⟩]
        (fun u => if u = 7 then .succeeded else .canceled)
        (fun _ => ExecResult.ok) ExecResult.ok).1
      = [TaskEv.flowEv 0, TaskEv.flowEv 1, TaskEv.doEv] := by
  have h := c1_flow_order
    [⟨none, true⟩, ⟨some 7, true⟩, ⟨some 8, false⟩]
    (fun u => if u = 7 then .succeeded else .canceled)
    (fun _ => ExecResult.ok) ExecResult.ok
    (by decide)
  rw [h]
  decide

/-- RetryOption (retry.go): the bounded-attempts retry policy. The
`Backoff` stream and `Timer` only control real-time waiting between
attempts and are erased by the shallow embedding; `MaxCount` bounds the
number of retries (`backoff.WithMaxRetries`), `StopIf` can make the
current error permanent. The `notAfter` deadline is likewise a real-time
feature and is modelled as never reached (the zero deadline). -/
structure RetryOption where
  MaxCount : Nat
  StopIf : Option (Nat → Option GoErr → Bool)

/-- DefaultRetryOption (retry.go): exponential backoff with `MaxCount`
10 and no stop predicate. -/
def DefaultRetryOption : RetryOption :=
  { MaxCount := 10, StopIf := none }

/-- Retry loop of `RetryOption.Run` (retry.go) under
`backoff.WithMaxRetries`: invoke `fn` (whose outcome may depend on the
attempt number); stop on nil, on a permanent error (StopIf fired), or
once the retries budget is exhausted. Returns the final error together
with the number of invocations of `fn`. -/
def retryLoopFn (stopIf : Option (Nat → Option GoErr → Bool))
    (fn : Nat → Option GoErr) : Nat → Nat → Option GoErr × Nat
  | retriesLeft, attempt =>
    let err := fn attempt
    let perm : Bool :=
      match stopIf with
      | some p => p attempt err
      | none => false
    if perm then (err, attempt + 1)
    else
      match err with
      | none => (none, attempt + 1)
      | some e =>
        match retriesLeft with
        | 0 => (some e, attempt + 1)
        | r + 1 => retryLoopFn stopIf fn r (attempt + 1)

/-- RetryOption.Run (retry.go): zero fields fall back to
`DefaultRetryOption`; the backoff policy is wrapped with
`WithMaxRetries(maxCount)`, allowing `maxCount` retries, i.e. at most
`maxCount + 1` invocations. -/
def RetryOption.Run (opt : RetryOption) (fn : Nat → Option GoErr) :
    Option GoErr × Nat :=
  let maxCount := if opt.MaxCount > 0 then opt.MaxCount else DefaultRetryOption.MaxCount
  let stopIf :=
    match opt.StopIf with
    | some p => some p
    | none => DefaultRetryOption.StopIf
  retryLoopFn stopIf fn maxCount 0

/-- The Workflow (part_008) together with the behavior of its user code.
`steps` lists the keys of the dependency map; `links` gives each step its
incoming links; `getCondition`, `getWhen` and `getRetry` are the per-step
configuration (nil meaning the default); `when` is the workflow-level
When; `flowRes s n i` is the outcome of link `i`'s flow action in attempt
`n` of step `s`, and `doRes s n` the outcome of step `s`'s `Do` in
attempt `n`. -/
structure Workflow where
  steps : List Nat
  links : Nat → List Link
  getCondition : Nat → Option (List StepStatus → Bool)
  getWhen : Nat → Option (Ctx → Bool)
  getRetry : Nat → Option RetryOption
  when : Option (Ctx → Bool)
  flowRes : Nat → Nat → Nat → ExecResult
  doRes : Nat → Nat → ExecResult

/-- Mutable state of a run: every step's status, and the workflow error
map (`none` models the nil map before `Run` initializes it). -/
structure WState where
  status : Nat → StepStatus
  errs : Option (List (Nat × Option GoErr))

/-- listUpstreamReporterOf (stage.go dependency type): the statuses of
the non-nil Dependees of a step's links, in link order. The source
returns the reporters themselves; the scheduler only ever reads their
statuses, which is what the embedding keeps. -/
def listUpstreamReporterOf (w : Workflow) (status : Nat → StepStatus) (s : Nat) :
    List StepStatus :=
  ((w.links s).filterMap Link.dependee).map status

/-- Pointwise update of a status map, the effect of `setStatus` on one
step. -/
def updateStatus (status : Nat → StepStatus) (s : Nat) (v : StepStatus) :
    Nat → StepStatus :=
  fun t => if t = s then v else status t

/-- State after `step.setStatus(v)`. -/
def setStatus (st : WState) (s : Nat) (v : StepStatus) : WState :=
  { st with status := updateStatus st.status s v }

/-- Go map assignment `errs[step] = err` on the association list. -/
def setEntry : List (Nat × Option GoErr) → Nat → Option GoErr →
    List (Nat × Option GoErr)
  | [], s, e => [(s, e)]
  | p :: rest, s, e => if p.1 = s then (s, e) :: rest else p :: setEntry rest s e

/-- Effective condition of a step (part_008 tick): `DefaultCondition`
when none is set. -/
def condOf (w : Workflow) (s : Nat) : List StepStatus → Bool :=
  match w.getCondition s with
  | none => DefaultCondition
  | some c => c

/-- Effective When of a step (part_008 tick): `DefaultWhenFunc` when none
is set. -/
def whenOf (w : Workflow) (s : Nat) : Ctx → Bool :=
  match w.getWhen s with
  | none => DefaultWhenFunc
  | some f => f

/-- Readiness check of tick (part_008): all upstreams of the step are
terminated. -/
def upstreamsTerminatedB (w : Workflow) (status : Nat → StepStatus) (s : Nat) : Bool :=
  (listUpstreamReporterOf w status s).all StepStatus.IsTerminated

/-- One attempt of a step's task: `makeDoForStep` with the user-code
outcomes of attempt `n`. -/
def doForStepAttempt (w : Workflow) (status : Nat → StepStatus) (s n : Nat) :
    List TaskEv × Option GoErr :=
  makeDoForStep (w.links s) status (w.flowRes s n) (w.doRes s n)

/-- Number of `Do` invocations in one attempt's trace. -/
def doCount (evs : List TaskEv) : Nat :=
  evs.count TaskEv.doEv

/-- runStep (part_008): run the task body directly when no retry policy
is set, else through the retry harness. Returns the error recorded in
the workflow error map, paired with the total number of `Do` invocations
across the attempts (the instrumentation claim C6 asks about). -/
def runStep (w : Workflow) (status : Nat → StepStatus) (s : Nat) :
    Option GoErr × Nat :=
  match w.getRetry s with
  | none =>
    let a := doForStepAttempt w status s 0
    (a.2, doCount a.1)
  | some opt =>
    let r := RetryOption.Run opt (fun n => (doForStepAttempt w status s n).2)
    (r.1, (List.range r.2).foldl (fun acc n => acc + doCount (doForStepAttempt w status s n).1) 0)

/-- Scheduler events: tick cancels a ready step (condition false), skips
it (When false), or launches it; a launched step's task finishes. -/
inductive Ev where
  | cancel (s : Nat)
  | skipEv (s : Nat)
  | launch (s : Nat)
  | finish (s : Nat)
deriving DecidableEq

/-- One observable transition of the scheduler (part_008 tick plus the
per-step goroutine). tick examines only Pending steps whose upstreams are
all terminated, gates them through Condition and When, and otherwise sets
them Running and starts the task; a finishing task records its error in
the error map and marks the step Failed or Succeeded. The interleavings
of this relation cover the interleavings of the goroutine-based source:
between a guard evaluation and the corresponding status write only
upstream statuses are read, and those are terminal hence stable. -/
inductive EvStep (w : Workflow) (ctx : Ctx) : WState → Ev → WState → Prop
  | cancel {st : WState} {s : Nat} :
      s ∈ w.steps → st.status s = .pending →
      upstreamsTerminatedB w st.status s = true →
      condOf w s (listUpstreamReporterOf w st.status s) = false →
      EvStep w ctx st (.cancel s) (setStatus st s .canceled)
  | skipEv {st : WState} {s : Nat} :
      s ∈ w.steps → st.status s = .pending →
      upstreamsTerminatedB w st.status s = true →
      condOf w s (listUpstreamReporterOf w st.status s) = true →
      whenOf w s ctx = false →
      EvStep w ctx st (.skipEv s) (setStatus st s .skipped)
  | launch {st : WState} {s : Nat} :
      s ∈ w.steps → st.status s = .pending →
      upstreamsTerminatedB w st.status s = true →
      condOf w s (listUpstreamReporterOf w st.status s) = true →
      whenOf w s ctx = true →
      EvStep w ctx st (.launch s) (setStatus st s .running)
  | finish {st : WState} {s : Nat} {l : List (Nat × Option GoErr)} :
      s ∈ w.steps → st.status s = .running → st.errs = some l →
      EvStep w ctx st (.finish s)
        { status := updateStatus st.status s
            (if (runStep w st.status s).1.isSome then .failed else .succeeded),
          errs := some (setEntry l s (runStep w st.status s).1) }

/-- A scheduler execution: a sequence of enabled events. -/
inductive Exec (w : Workflow) (ctx : Ctx) : WState → List Ev → WState → Prop
  | nil {st : WState} : Exec w ctx st [] st
  | cons {st st' st'' : WState} {e : Ev} {evs : List Ev} :
      EvStep w ctx st e st' → Exec w ctx st' evs st'' →
      Exec w ctx st (e :: evs) st''

/-- IsTerminated (part_008): every step of the workflow is terminated. -/
def IsTerminatedB (w : Workflow) (st : WState) : Bool :=
  w.steps.all (fun s => (st.status s).IsTerminated)

/-- Step targeted by a scheduler event. -/
def evTarget : Ev → Nat
  | .cancel s => s
  | .skipEv s => s
  | .launch s => s
  | .finish s => s

/-- Lookup in the error map association list. -/
def lookupEntry (s : Nat) : List (Nat × Option GoErr) → Option (Option GoErr)
  | [] => none
  | p :: rest => if p.1 = s then some p.2 else lookupEntry s rest

/-- Whether the error map holds an entry for a step. -/
def entryB (st : WState) (s : Nat) : Bool :=
  match st.errs with
  | none => false
  | some l => (lookupEntry s l).isSome

/-- Whether a step's status is Succeeded or Failed. -/
def statusSF (st : WState) (s : Nat) : Bool :=
  st.status s == .succeeded || st.status s == .failed

theorem lookupEntry_setEntry_self (s : Nat) (e : Option GoErr) :
    ∀ l : List (Nat × Option GoErr), lookupEntry s (setEntry l s e) = some e := by
  intro l
  induction l with
  | nil => simp [setEntry, lookupEntry]
  | cons p rest ih =>
    by_cases hp : p.1 = s
    · simp [setEntry, hp, lookupEntry]
    · simp only [setEntry, hp, if_false, lookupEntry]
      exact ih

theorem lookupEntry_setEntry_ne (s t : Nat) (e : Option GoErr) (hts : s ≠ t) :
    ∀ l : List (Nat × Option GoErr),
      lookupEntry t (setEntry l s e) = lookupEntry t l := by
  intro l
  induction l with
  | nil => simp [setEntry, lookupEntry, hts]
  | cons p rest ih =>
    by_cases hp : p.1 = s
    · simp only [setEntry, hp, if_true, lookupEntry]
      rw [if_neg hts, if_neg (hp ▸ hts)]
    · simp only [setEntry, hp, if_false, lookupEntry]
      by_cases hpt : p.1 = t
      · rw [if_pos hpt, if_pos hpt]
      · rw [if_neg hpt, if_neg hpt]
        exact ih

theorem evstep_status_ne {w : Workflow} {ctx : Ctx} {st st' : WState} {e : Ev}
    (h : EvStep w ctx st e st') (t : Nat) (ht : t ≠ evTarget e) :
    st'.status t = st.status t := by
  cases h with
  | cancel hmem hp hu hc =>
    simp [evTarget] at ht
    simp [setStatus, updateStatus, ht]
  | skipEv hmem hp hu hc hw =>
    simp [evTarget] at ht
    simp [setStatus, updateStatus, ht]
  | launch hmem hp hu hc hw =>
    simp [evTarget] at ht
    simp [setStatus, updateStatus, ht]
  | finish hmem hr he =>
    simp [evTarget] at ht
    simp [updateStatus, ht]

theorem exec_frozen {w : Workflow} {ctx : Ctx} {st stF : WState} {evs : List Ev}
    (s : Nat) (hExec : Exec w ctx st evs stF)
    (hT : (st.status s).IsTerminated = true) :
    stF.status s = st.status s ∧ ∀ e ∈ evs, evTarget e ≠ s := by
  induction hExec with
  | nil => exact ⟨rfl, by simp⟩
  | @cons st st' st'' e evs h hrest ih =>
    by_cases hts : evTarget e = s
    · exfalso
      cases h with
      | cancel hmem hp hu hc =>
        simp [evTarget] at hts; subst hts
        rw [hp] at hT; simp [StepStatus.IsTerminated] at hT
      | skipEv hmem hp hu hc hw =>
        simp [evTarget] at hts; subst hts
        rw [hp] at hT; simp [StepStatus.IsTerminated] at hT
      | launch hmem hp hu hc hw =>
        simp [evTarget] at hts; subst hts
        rw [hp] at hT; simp [StepStatus.IsTerminated] at hT
      | finish hmem hr he =>
        simp [evTarget] at hts; subst hts
        rw [hr] at hT; simp [StepStatus.IsTerminated] at hT
    · have hst : st'.status s = st.status s := evstep_status_ne h s (fun hh => hts hh.symm)
      have := ih (by rw [hst]; exact hT)
      refine ⟨by rw [this.1, hst], ?_⟩
      intro x hx
      rcases List.mem_cons.mp hx with hx | hx
      · subst hx; exact hts
      · exact this.2 x hx

theorem exec_running {w : Workflow} {ctx : Ctx} {st stF : WState} {evs : List Ev}
    (s : Nat) (hExec : Exec w ctx st evs stF)
    (hR : st.status s = .running) :
    (stF.status s = .running ∨ stF.status s = .succeeded ∨ stF.status s = .failed) ∧
      Ev.launch s ∉ evs := by
  induction hExec with
  | nil => exact ⟨Or.inl hR, by simp⟩
  | @cons st st' st'' e evs h hrest ih =>
    by_cases hts : evTarget e = s
    · cases h with
      | @cancel t hmem hp hu hc =>
        simp [evTarget] at hts; subst hts
        rw [hp] at hR; cases hR
      | @skipEv t hmem hp hu hc hw =>
        simp [evTarget] at hts; subst hts
        rw [hp] at hR; cases hR
      | @launch t hmem hp hu hc hw =>
        simp [evTarget] at hts; subst hts
        rw [hp] at hR; cases hR
      | @finish t l hmem hr he =>
        simp [evTarget] at hts; subst hts
        have hT : ((updateStatus st.status t
            (if (runStep w st.status t).1.isSome then StepStatus.failed
              else StepStatus.succeeded)) t).IsTerminated = true := by
          by_cases hc : (runStep w st.status t).1.isSome
          · simp [updateStatus, hc, StepStatus.IsTerminated]
          · simp [updateStatus, hc, StepStatus.IsTerminated]
        have hfr := exec_frozen t hrest hT
        constructor
        · rw [hfr.1]
          show updateStatus st.status t _ t = _ ∨ _
          by_cases hc : (runStep w st.status t).1.isSome
          · simp [updateStatus, hc]
          · simp [updateStatus, hc]
        · intro hmem'
          rcases List.mem_cons.mp hmem' with hmem' | hmem'
          · cases hmem'
          · exact hfr.2 _ hmem' (by simp [evTarget])
    · have hst : st'.status s = st.status s := evstep_status_ne h s (fun hh => hts hh.symm)
      have := ih (by rw [hst]; exact hR)
      refine ⟨this.1, ?_⟩
      intro hmem'
      rcases List.mem_cons.mp hmem' with hmem' | hmem'
      · subst hmem'; simp [evTarget] at hts
      · exact this.2 hmem'

theorem exec_launch_mem {w : Workflow} {ctx : Ctx} {st stF : WState} {evs : List Ev}
    (s : Nat) (hExec : Exec w ctx st evs stF)
    (hP : st.status s = .pending) :
    Ev.launch s ∈ evs ↔
      (stF.status s = .running ∨ stF.status s = .succeeded ∨ stF.status s = .failed) := by
  induction hExec with
  | nil =>
    simp only [List.not_mem_nil, false_iff]
    rw [hP]
    simp
  | @cons st st' st'' e evs h hrest ih =>
    by_cases hts : evTarget e = s
    · cases h with
      | @cancel t hmem hp hu hc =>
        simp [evTarget] at hts; subst hts
        have hfr := exec_frozen t hrest (by
          simp [setStatus, updateStatus, StepStatus.IsTerminated])
        have hfin : st''.status t = StepStatus.canceled := by
          rw [hfr.1]; simp [setStatus, updateStatus]
        constructor
        · intro hmem'
          rcases List.mem_cons.mp hmem' with hmem' | hmem'
          · cases hmem'
          · exact absurd (show evTarget (Ev.launch t) = t by simp [evTarget])
              (hfr.2 _ hmem')
        · intro hdisj
          rw [hfin] at hdisj
          rcases hdisj with h | h | h <;> cases h
      | @skipEv t hmem hp hu hc hw =>
        simp [evTarget] at hts; subst hts
        have hfr := exec_frozen t hrest (by
          simp [setStatus, updateStatus, StepStatus.IsTerminated])
        have hfin : st''.status t = StepStatus.skipped := by
          rw [hfr.1]; simp [setStatus, updateStatus]
        constructor
        · intro hmem'
          rcases List.mem_cons.mp hmem' with hmem' | hmem'
          · cases hmem'
          · exact absurd (show evTarget (Ev.launch t) = t by simp [evTarget])
              (hfr.2 _ hmem')
        · intro hdisj
          rw [hfin] at hdisj
          rcases hdisj with h | h | h <;> cases h
      | @launch t hmem hp hu hc hw =>
        simp [evTarget] at hts; subst hts
        have hrun := exec_running t hrest (by simp [setStatus, updateStatus])
        simp only [List.mem_cons, true_or, true_iff]
        exact hrun.1
      | @finish t l hmem hr he =>
        simp [evTarget] at hts; subst hts
        rw [hr] at hP; cases hP
    · have hst : st'.status s = st.status s := evstep_status_ne h s (fun hh => hts hh.symm)
      have hiff := ih (by rw [hst]; exact hP)
      constructor
      · intro hmem'
        rcases List.mem_cons.mp hmem' with hmem' | hmem'
        · subst hmem'; simp [evTarget] at hts
        · exact hiff.mp hmem'
      · intro hdisj
        exact List.mem_cons.mpr (Or.inr (hiff.mpr hdisj))

theorem entryB_setStatus (st : WState) (t : Nat) (v : StepStatus) (s : Nat) :
    entryB (setStatus st t v) s = entryB st s := rfl

theorem statusSF_setStatus_self (st : WState) (t : Nat) (v : StepStatus) :
    statusSF (setStatus st t v) t = (v == .succeeded || v == .failed) := by
  simp [statusSF, setStatus, updateStatus]

theorem statusSF_setStatus_ne (st : WState) (t : Nat) (v : StepStatus) (s : Nat)
    (hts : s ≠ t) : statusSF (setStatus st t v) s = statusSF st s := by
  simp [statusSF, setStatus, updateStatus, hts]

theorem exec_entry_inv {w : Workflow} {ctx : Ctx} {st stF : WState} {evs : List Ev}
    (s : Nat) (hExec : Exec w ctx st evs stF)
    (hInv : entryB st s = statusSF st s) :
    entryB stF s = statusSF stF s := by
  induction hExec with
  | nil => exact hInv
  | @cons st st' st'' e evs h hrest ih =>
    apply ih
    cases h with
    | @cancel t hmem hp hu hc =>
      by_cases hts : t = s
      · subst hts
        rw [entryB_setStatus, statusSF_setStatus_self, hInv]
        simp only [statusSF, hp]
        decide
      · rw [entryB_setStatus, statusSF_setStatus_ne st t _ s (fun hh => hts hh.symm)]
        exact hInv
    | @skipEv t hmem hp hu hc hw =>
      by_cases hts : t = s
      · subst hts
        rw [entryB_setStatus, statusSF_setStatus_self, hInv]
        simp only [statusSF, hp]
        decide
      · rw [entryB_setStatus, statusSF_setStatus_ne st t _ s (fun hh => hts hh.symm)]
        exact hInv
    | @launch t hmem hp hu hc hw =>
      by_cases hts : t = s
      · subst hts
        rw [entryB_setStatus, statusSF_setStatus_self, hInv]
        simp only [statusSF, hp]
        decide
      · rw [entryB_setStatus, statusSF_setStatus_ne st t _ s (fun hh => hts hh.symm)]
        exact hInv
    | @finish t l hmem hr he =>
      by_cases hts : t = s
      · subst hts
        show ((lookupEntry t (setEntry l t (runStep w st.status t).1)).isSome)
            = statusSF _ t
        rw [lookupEntry_setEntry_self]
        by_cases hc : (runStep w st.status t).1.isSome
        · simp [statusSF, updateStatus, hc]
        · simp [statusSF, updateStatus, hc]
      · have hsts : ¬ s = t := fun hh => hts hh.symm
        show ((lookupEntry s (setEntry l t (runStep w st.status t).1)).isSome)
            = statusSF _ s
        rw [lookupEntry_setEntry_ne t s _ hts l]
        have hstat : statusSF
            { status := updateStatus st.status t
                (if (runStep w st.status t).1.isSome then StepStatus.failed
                 else StepStatus.succeeded),
              errs := some (setEntry l t (runStep w st.status t).1) } s
            = statusSF st s := by
          simp [statusSF, updateStatus, hsts]
        rw [hstat]
        rw [show ((lookupEntry s l).isSome) = entryB st s by simp only [entryB, he]]
        exact hInv

/-- C2: after the scheduler loop finishes (every step terminated), the
error map holds an entry exactly for the steps that were launched into
Running during the run; steps that terminated as Canceled or Skipped have
no entry. -/
theorem c2_error_map {w : Workflow} {ctx : Ctx} {st0 stF : WState} {evs : List Ev}
    (hInit : ∀ s ∈ w.steps, st0.status s = .pending)
    (hErrs : st0.errs = some [])
    (hExec : Exec w ctx st0 evs stF)
    (hTerm : IsTerminatedB w stF = true)
    (s : Nat) (hs : s ∈ w.steps) :
    (entryB stF s = true ↔ Ev.launch s ∈ evs) ∧
    ((stF.status s = .canceled ∨ stF.status s = .skipped) → entryB stF s = false) := by
  have hbase : entryB st0 s = statusSF st0 s := by
    have h1 : entryB st0 s = false := by simp [entryB, hErrs, lookupEntry]
    have h2 : statusSF st0 s = false := by simp [statusSF, hInit s hs]
    rw [h1, h2]
  have hinv := exec_entry_inv s hExec hbase
  have hiff := exec_launch_mem s hExec (hInit s hs)
  have hterm_s : (stF.status s).IsTerminated = true := by
    have := List.all_eq_true.mp hTerm
    exact this s hs
  constructor
  · rw [hinv]
    constructor
    · intro hsf
      apply hiff.mpr
      simp only [statusSF, Bool.or_eq_true, beq_iff_eq] at hsf
      exact Or.inr hsf
    · intro hmem
      rcases hiff.mp hmem with h | h | h
      · exfalso
        rw [h] at hterm_s
        simp [StepStatus.IsTerminated] at hterm_s
      · simp [statusSF, h]
      · simp [statusSF, h]
  · intro hcs
    rw [hinv]
    rcases hcs with h | h <;> simp [statusSF, h]

/-- A step is targeted by a leave-Pending event: tick's cancel, skip or
launch of that step. -/
def leavesPendingB (s : Nat) : Ev → Bool
  | .cancel t => t == s
  | .skipEv t => t == s
  | .launch t => t == s
  | .finish _ => false

/-- Allowed observable status changes of one step: no change, or a
transition of the documented state machine. A terminal status allows no
change at all. -/
def stepTransOK (a b : StepStatus) : Bool :=
  a == b ||
  (a == .pending && (b == .running || b == .canceled || b == .skipped)) ||
  (a == .running && (b == .succeeded || b == .failed))

theorem evstep_not_pending {w : Workflow} {ctx : Ctx} {st st' : WState} {e : Ev}
    (h : EvStep w ctx st e st') (s : Nat) (hnp : st.status s ≠ .pending) :
    st'.status s ≠ .pending := by
  by_cases hts : evTarget e = s
  · cases h with
    | @cancel t hmem hp hu hc =>
      simp [evTarget] at hts; subst hts
      exact absurd hp hnp
    | @skipEv t hmem hp hu hc hw =>
      simp [evTarget] at hts; subst hts
      exact absurd hp hnp
    | @launch t hmem hp hu hc hw =>
      simp [evTarget] at hts; subst hts
      exact absurd hp hnp
    | @finish t l hmem hr he =>
      simp [evTarget] at hts; subst hts
      show updateStatus st.status t _ t ≠ .pending
      by_cases hc : (runStep w st.status t).1.isSome
      · simp [updateStatus, hc]
      · simp [updateStatus, hc]
  · rw [evstep_status_ne h s (fun hh => hts hh.symm)]
    exact hnp

theorem exec_notPending_noLeave {w : Workflow} {ctx : Ctx} {st stF : WState}
    {evs : List Ev} (s : Nat) (hExec : Exec w ctx st evs stF)
    (hnp : st.status s ≠ .pending) :
    evs.countP (leavesPendingB s) = 0 := by
  induction hExec with
  | nil => simp
  | @cons st st' st'' e evs h hrest ih =>
    have htail : evs.countP (leavesPendingB s) = 0 := ih (evstep_not_pending h s hnp)
    by_cases hL : leavesPendingB s e = true
    · exfalso
      cases h with
      | @cancel t hmem hp hu hc =>
        simp [leavesPendingB] at hL; subst hL
        exact hnp hp
      | @skipEv t hmem hp hu hc hw =>
        simp [leavesPendingB] at hL; subst hL
        exact hnp hp
      | @launch t hmem hp hu hc hw =>
        simp [leavesPendingB] at hL; subst hL
        exact hnp hp
      | @finish t l hmem hr he =>
        simp [leavesPendingB] at hL
    · have hL2 : leavesPendingB s e = false := by simpa using hL
      rw [List.countP_cons, hL2]
      simpa using htail

theorem exec_nonmember_noLeave {w : Workflow} {ctx : Ctx} {st stF : WState}
    {evs : List Ev} (s : Nat) (hExec : Exec w ctx st evs stF)
    (hs : s ∉ w.steps) :
    evs.countP (leavesPendingB s) = 0 := by
  induction hExec with
  | nil => simp
  | @cons st st' st'' e evs h hrest ih =>
    by_cases hL : leavesPendingB s e = true
    · exfalso
      cases h with
      | @cancel t hmem hp hu hc =>
        simp [leavesPendingB] at hL; subst hL
        exact hs hmem
      | @skipEv t hmem hp hu hc hw =>
        simp [leavesPendingB] at hL; subst hL
        exact hs hmem
      | @launch t hmem hp hu hc hw =>
        simp [leavesPendingB] at hL; subst hL
        exact hs hmem
      | @finish t l hmem hr he =>
        simp [leavesPendingB] at hL
    · have hL2 : leavesPendingB s e = false := by simpa using hL
      rw [List.countP_cons, hL2]
      simpa using ih

theorem exec_pending_leaveOnce {w : Workflow} {ctx : Ctx} {st stF : WState}
    {evs : List Ev} (s : Nat) (hExec : Exec w ctx st evs stF)
    (hp0 : st.status s = .pending) :
    evs.countP (leavesPendingB s) ≤ 1 := by
  induction hExec with
  | nil => simp
  | @cons st st' st'' e evs h hrest ih =>
    by_cases hL : leavesPendingB s e = true
    · rw [List.countP_cons, hL]
      have hnp : st'.status s ≠ .pending := by
        cases h with
        | @cancel t hmem hp hu hc =>
          simp [leavesPendingB] at hL; subst hL
          simp [setStatus, updateStatus]
        | @skipEv t hmem hp hu hc hw =>
          simp [leavesPendingB] at hL; subst hL
          simp [setStatus, updateStatus]
        | @launch t hmem hp hu hc hw =>
          simp [leavesPendingB] at hL; subst hL
          simp [setStatus, updateStatus]
        | @finish t l hmem hr he =>
          simp [leavesPendingB] at hL
      rw [exec_notPending_noLeave s hrest hnp]
      simp
    · have hL2 : leavesPendingB s e = false := by simpa using hL
      rw [List.countP_cons, hL2]
      simp only [Bool.false_eq_true, if_false, Nat.add_zero]
      apply ih
      by_cases hts : evTarget e = s
      · exfalso
        cases h with
        | @cancel t hmem hp hu hc =>
          simp [evTarget] at hts; subst hts
          simp [leavesPendingB] at hL
        | @skipEv t hmem hp hu hc hw =>
          simp [evTarget] at hts; subst hts
          simp [leavesPendingB] at hL
        | @launch t hmem hp hu hc hw =>
          simp [evTarget] at hts; subst hts
          simp [leavesPendingB] at hL
        | @finish t l hmem hr he =>
          simp [evTarget] at hts; subst hts
          rw [hr] at hp0; cases hp0
      · rw [evstep_status_ne h s (fun hh => hts hh.symm)]
        exact hp0

theorem evstep_transOK {w : Workflow} {ctx : Ctx} {st st' : WState} {e : Ev}
    (h : EvStep w ctx st e st') (s : Nat) :
    stepTransOK (st.status s) (st'.status s) = true := by
  by_cases hts : evTarget e = s
  · cases h with
    | @cancel t hmem hp hu hc =>
      simp [evTarget] at hts; subst hts
      rw [hp]
      simp [setStatus, updateStatus, stepTransOK]
    | @skipEv t hmem hp hu hc hw =>
      simp [evTarget] at hts; subst hts
      rw [hp]
      simp [setStatus, updateStatus, stepTransOK]
    | @launch t hmem hp hu hc hw =>
      simp [evTarget] at hts; subst hts
      rw [hp]
      simp [setStatus, updateStatus, stepTransOK]
    | @finish t l hmem hr he =>
      simp [evTarget] at hts; subst hts
      rw [hr]
      show stepTransOK _ (updateStatus st.status t _ t) = true
      by_cases hc : (runStep w st.status t).1.isSome
      · simp [updateStatus, hc, stepTransOK]
      · simp [updateStatus, hc, stepTransOK]
  · rw [evstep_status_ne h s (fun hh => hts hh.symm)]
    simp [stepTransOK]

/-- C7: within one run from the post-preflight state (all steps Pending),
every step leaves Pending at most once and enters Running at most once,
and any scheduler event changes a step's status only along
Pending to Running/Canceled/Skipped or Running to Succeeded/Failed. In
particular no event moves a step out of a terminal status. -/
theorem c7_state_machine {w : Workflow} {ctx : Ctx} {st0 stF : WState}
    {evs : List Ev}
    (hInit : ∀ s ∈ w.steps, st0.status s = .pending)
    (hExec : Exec w ctx st0 evs stF) (s : Nat) :
    evs.countP (leavesPendingB s) ≤ 1 ∧
    evs.count (Ev.launch s) ≤ 1 ∧
    (∀ st st' : WState, ∀ e : Ev, EvStep w ctx st e st' →
      stepTransOK (st.status s) (st'.status s) = true) := by
  have hleave : evs.countP (leavesPendingB s) ≤ 1 := by
    by_cases hs : s ∈ w.steps
    · exact exec_pending_leaveOnce s hExec (hInit s hs)
    · rw [exec_nonmember_noLeave s hExec hs]
      omega
  refine ⟨hleave, ?_, fun st st' e h => evstep_transOK h s⟩
  have hcount : evs.count (Ev.launch s) ≤ evs.countP (leavesPendingB s) := by
    rw [List.count]
    apply List.countP_mono_left
    intro a _ ha
    have : a = Ev.launch s := by simpa using ha
    subst this
    simp [leavesPendingB]
  omega

/-- Engine errors surfaced by `Run` and `preflight` (part_008):
`ErrWorkflowHasRun`, `ErrUnexpectStepInitStatus` (the offending steps),
`ErrCycleDependency` (each non-Scanned step with its non-Scanned
upstreams), and the workflow error map returned when some step failed. -/
inductive RunErr where
  | hasRun
  | unexpectStepInitStatus (steps : List Nat)
  | cycleDependency (m : List (Nat × List Nat))
  | errWorkflow (errs : List (Nat × Option GoErr))
deriving DecidableEq

/-- isAllDependeeScanned (part_008): every upstream's status is the
private Scanned marker. -/
def isAllDependeeScanned (deps : List StepStatus) : Bool :=
  deps.all (fun d => d == .scanned)

/-- One pass of the preflight scan loop (part_008 `preflight`, inner
`for step := range s.deps`): mark a step Scanned when it is not yet
Scanned and all its upstreams are Scanned, remembering whether some new
step was marked. The Go map iteration order is unspecified; the embedding
fixes the `steps` list order, which is one admissible order. -/
def scanPassAux (w : Workflow) : List Nat → (Nat → StepStatus) → Bool →
    (Nat → StepStatus) × Bool
  | [], status, has => (status, has)
  | s :: rest, status, has =>
    if status s == .scanned then scanPassAux w rest status has
    else if isAllDependeeScanned (listUpstreamReporterOf w status s) then
      scanPassAux w rest (updateStatus status s .scanned) true
    else scanPassAux w rest status has

/-- One full pass over all steps. -/
def scanPass (w : Workflow) (status : Nat → StepStatus) :
    (Nat → StepStatus) × Bool :=
  scanPassAux w w.steps status false

/-- The scan loop of `preflight` (part_008): repeat passes while some new
step was marked Scanned. The Go loop terminates because each productive
pass marks at least one new step; the embedding carries explicit fuel and
`preflight` supplies `steps.length + 1`, which is enough, as proven in
`scanLoop_fixpoint` below. -/
def scanLoop (w : Workflow) : Nat → (Nat → StepStatus) → Nat → StepStatus
  | 0, status => status
  | fuel + 1, status =>
    let r := scanPass w status
    if r.2 then scanLoop w fuel r.1 else r.1

/-- stepsInCycle (part_008 `preflight`): each step that is not Scanned
after the scan, mapped to its non-Scanned upstreams; a step gets an entry
only when it has at least one non-Scanned upstream, exactly as the Go
`append` on the nil map entry. -/
def stepsInCycle (w : Workflow) (status : Nat → StepStatus) :
    List (Nat × List Nat) :=
  w.steps.filterMap (fun s =>
    if status s == .scanned then none
    else if (((w.links s).filterMap Link.dependee).filter
        (fun u => !(status u == .scanned))).isEmpty then none
    else some (s, ((w.links s).filterMap Link.dependee).filter
        (fun u => !(status u == .scanned))))

/-- preflight (part_008): refuse a second run (`errs != nil`), refuse any
step whose status is not Pending, then run the cycle scan; on a cycle
return `ErrCycleDependency` (statuses are left as the scan produced
them), else reset every step to Pending. -/
def preflight (w : Workflow) (st : WState) : WState × Option RunErr :=
  if st.errs.isSome then (st, some RunErr.hasRun)
  else
    let unexpect := w.steps.filter (fun s => !(st.status s == .pending))
    if !unexpect.isEmpty then (st, some (RunErr.unexpectStepInitStatus unexpect))
    else
      let scanRes := scanLoop w (w.steps.length + 1) st.status
      let cyc := stepsInCycle w scanRes
      if !cyc.isEmpty then
        ({ st with status := scanRes }, some (RunErr.cycleDependency cyc))
      else
        ({ st with status := fun t => if t ∈ w.steps then .pending else scanRes t },
          none)

/-- IsNil of the workflow error map (workflow.go `ErrWorkflow.IsNil`):
true iff every recorded error is nil; the nil map is also nil. -/
def errWorkflowIsNil (l : List (Nat × Option GoErr)) : Bool :=
  l.all (fun p => p.2 == none)

/-- IsNil lifted to a possibly-nil (`none`) map, as ranging over the Go
nil map visits nothing. -/
def errsIsNil : Option (List (Nat × Option GoErr)) → Bool
  | none => true
  | some l => errWorkflowIsNil l

/-- Err (part_008): return nil when `errs.IsNil()`, else a copy of the
error map. -/
def Err (st : WState) : Option (List (Nat × Option GoErr)) :=
  if errsIsNil st.errs then none else st.errs

/-- The value `Run` returns after the loop: nil when the error map is
IsNil, else the error map itself. -/
def runReturn (st : WState) : Option RunErr :=
  if errsIsNil st.errs then none else some (RunErr.errWorkflow (st.errs.getD []))

/-- State after the workflow-level When short-circuit of `Run`
(part_008): every step of the graph is marked Skipped; nothing else is
touched. -/
def skipAllState (w : Workflow) (st : WState) : WState :=
  { st with status := fun t => if t ∈ w.steps then .skipped else st.status t }

/-- State after `s.errs = make(ErrWorkflow)` at the start of the loop. -/
def initErrs (st : WState) : WState :=
  { st with errs := some [] }

/-- The workflow-level When does not short-circuit: either unset, or it
returns true for this context (`s.when != nil && !s.when(ctx)` is
false). -/
def wfWhenOk (w : Workflow) (ctx : Ctx) : Prop :=
  ∀ f, w.when = some f → f ctx = true

/-- Run (part_008): the three ways a call to `Run` can go. Either the
workflow-level When short-circuits (every step Skipped, nil returned,
preflight and the loop never run); or preflight fails and its error is
returned; or preflight passes, the error map is initialized and the
tick/termination loop runs to a state where every step is terminated,
returning nil or the error map. The `ErrWorkflowIsRunning` branch guards
reentrancy only and has no meaning in a sequential embedding. -/
inductive RunRel (w : Workflow) (ctx : Ctx) : WState → WState → Option RunErr → Prop
  | whenFalse {st : WState} {f : Ctx → Bool} :
      w.when = some f → f ctx = false →
      RunRel w ctx st (skipAllState w st) none
  | preflightFail {st : WState} {e : RunErr} :
      wfWhenOk w ctx → (preflight w st).2 = some e →
      RunRel w ctx st (preflight w st).1 (some e)
  | completed {st st2 : WState} {evs : List Ev} :
      wfWhenOk w ctx → (preflight w st).2 = none →
      Exec w ctx (initErrs (preflight w st).1) evs st2 →
      IsTerminatedB w st2 = true →
      RunRel w ctx st st2 (runReturn st2)

theorem runrel_when_false_inv {w : Workflow} {ctx : Ctx} {st stF : WState}
    {ret : Option RunErr} {f : Ctx → Bool}
    (hf : w.when = some f) (hfc : f ctx = false)
    (h : RunRel w ctx st stF ret) :
    ret = none ∧ (∀ s ∈ w.steps, stF.status s = .skipped) ∧ stF.errs = st.errs := by
  cases h with
  | whenFalse hf' hc' =>
    refine ⟨rfl, ?_, rfl⟩
    intro s hs
    simp [skipAllState, hs]
  | preflightFail hok hpre =>
    exfalso
    have := hok f hf
    rw [hfc] at this
    cases this
  | completed hok hpre hexec hterm =>
    exfalso
    have := hok f hf
    rw [hfc] at this
    cases this

/-- C5: when the workflow-level When is set and returns false for the
context given to `Run`, every outcome of `Run` marks every step of the
graph Skipped and returns nil, and neither preflight nor any step runs
(the error map, which preflight inspects and the loop initializes and
writes, is untouched). -/
theorem c5_workflow_when {w : Workflow} {ctx : Ctx} {st stF : WState}
    {ret : Option RunErr} {f : Ctx → Bool}
    (hf : w.when = some f) (hfc : f ctx = false)
    (h : RunRel w ctx st stF ret) :
    ret = none ∧ (∀ s ∈ w.steps, stF.status s = .skipped) ∧ stF.errs = st.errs :=
  runrel_when_false_inv hf hfc h

theorem preflight_allSkipped {w : Workflow} {st1 : WState}
    (hne : w.steps ≠ []) (herr : st1.errs = none)
    (hsk : ∀ s ∈ w.steps, st1.status s = .skipped) :
    preflight w st1 = (st1, some (RunErr.unexpectStepInitStatus w.steps)) := by
  have hfil : w.steps.filter (fun s => !(st1.status s == .pending)) = w.steps := by
    apply List.filter_eq_self.mpr
    intro s hs
    simp [hsk s hs]
  have hempty : w.steps.isEmpty = false := by
    cases hl : w.steps with
    | nil => exact absurd hl hne
    | cons a as => simp
  simp only [preflight, herr, Option.isSome_none, Bool.false_eq_true, if_false, hfil,
    hempty, Bool.not_false, if_true]

/-- C10: a run short-circuited by the workflow-level When leaves the
error map nil, so a second `Run` without `Reset` is not rejected with
`ErrWorkflowHasRun`: if the predicate returns false again the second run
returns nil again, and if it now returns true the second run fails with
`ErrUnexpectStepInitStatus` listing every step, because every step is
still Skipped rather than Pending. -/
theorem c10_second_run {w : Workflow} {f : Ctx → Bool} {st0 st1 st2 : WState}
    {r1 r2 : Option RunErr} {ctx1 ctx2 : Ctx}
    (hw : w.when = some f) (hne : w.steps ≠ [])
    (hErr0 : st0.errs = none)
    (h1 : f ctx1 = false) (hr1 : RunRel w ctx1 st0 st1 r1)
    (hr2 : RunRel w ctx2 st1 st2 r2) :
    r1 = none ∧ st1.errs = none ∧
    (f ctx2 = false → r2 = none) ∧
    (f ctx2 = true → r2 = some (RunErr.unexpectStepInitStatus w.steps)) := by
  obtain ⟨hr1none, hsk1, herr1⟩ := runrel_when_false_inv hw h1 hr1
  rw [hErr0] at herr1
  refine ⟨hr1none, herr1, ?_, ?_⟩
  · intro h2
    exact (runrel_when_false_inv hw h2 hr2).1
  · intro h2
    have hpre := preflight_allSkipped hne herr1 hsk1
    cases hr2 with
    | whenFalse hf' hc' =>
      rw [hw] at hf'
      have hff : f = _ := Option.some.inj hf'
      rw [← hff, h2] at hc'
      cases hc'
    | preflightFail hok hpre' =>
      rw [hpre] at hpre'
      have : _ = _ := Option.some.inj hpre'
      rw [← this]
    | completed hok hpre' hexec hterm =>
      rw [hpre] at hpre'
      cases hpre'

/-- Number of steps of the workflow already marked Scanned. -/
def cntScanned (w : Workflow) (status : Nat → StepStatus) : Nat :=
  w.steps.countP (fun s => status s == .scanned)

theorem scanPassAux_mono (w : Workflow) :
    ∀ (l : List Nat) (status : Nat → StepStatus) (has : Bool) (t : Nat),
      status t = .scanned → (scanPassAux w l status has).1 t = .scanned := by
  intro l
  induction l with
  | nil => intro status has t ht; exact ht
  | cons s rest ih =>
    intro status has t ht
    simp only [scanPassAux]
    by_cases h1 : status s == .scanned
    · rw [if_pos h1]; exact ih status has t ht
    · rw [if_neg h1]
      by_cases h2 : isAllDependeeScanned (listUpstreamReporterOf w status s)
      · rw [if_pos h2]
        apply ih
        simp only [updateStatus]
        by_cases hts : t = s
        · rw [if_pos hts]
        · rw [if_neg hts]; exact ht
      · rw [if_neg h2]; exact ih status has t ht

theorem scanPassAux_zone (w : Workflow) :
    ∀ (l : List Nat) (status : Nat → StepStatus) (has : Bool) (t : Nat),
      (scanPassAux w l status has).1 t = .scanned ∨
        (scanPassAux w l status has).1 t = status t := by
  intro l
  induction l with
  | nil => intro status has t; exact Or.inr rfl
  | cons s rest ih =>
    intro status has t
    simp only [scanPassAux]
    by_cases h1 : status s == .scanned
    · rw [if_pos h1]; exact ih status has t
    · rw [if_neg h1]
      by_cases h2 : isAllDependeeScanned (listUpstreamReporterOf w status s)
      · rw [if_pos h2]
        rcases ih (updateStatus status s .scanned) true t with h | h
        · exact Or.inl h
        · rw [h]
          simp only [updateStatus]
          by_cases hts : t = s
          · rw [if_pos hts]; exact Or.inl rfl
          · rw [if_neg hts]; exact Or.inr rfl
      · rw [if_neg h2]; exact ih status has t

theorem scanPassAux_has_true (w : Workflow) :
    ∀ (l : List Nat) (status : Nat → StepStatus),
      (scanPassAux w l status true).2 = true := by
  intro l
  induction l with
  | nil => intro status; rfl
  | cons s rest ih =>
    intro status
    simp only [scanPassAux]
    by_cases h1 : status s == .scanned
    · rw [if_pos h1]; exact ih status
    · rw [if_neg h1]
      by_cases h2 : isAllDependeeScanned (listUpstreamReporterOf w status s)
      · rw [if_pos h2]; exact ih _
      · rw [if_neg h2]; exact ih status

theorem scanPassAux_false_id (w : Workflow) :
    ∀ (l : List Nat) (status : Nat → StepStatus) (has : Bool),
      (scanPassAux w l status has).2 = false →
      (scanPassAux w l status has).1 = status := by
  intro l
  induction l with
  | nil => intro status has _; rfl
  | cons s rest ih =>
    intro status has hfalse
    simp only [scanPassAux] at hfalse ⊢
    by_cases h1 : status s == .scanned
    · rw [if_pos h1] at hfalse ⊢; exact ih status has hfalse
    · rw [if_neg h1] at hfalse ⊢
      by_cases h2 : isAllDependeeScanned (listUpstreamReporterOf w status s)
      · rw [if_pos h2] at hfalse
        rw [scanPassAux_has_true w rest _] at hfalse
        cases hfalse
      · rw [if_neg h2] at hfalse ⊢; exact ih status has hfalse

theorem scanPassAux_false_noNew (w : Workflow) :
    ∀ (l : List Nat) (status : Nat → StepStatus) (has : Bool),
      (scanPassAux w l status has).2 = false →
      ∀ s ∈ l, ¬ status s = .scanned →
        isAllDependeeScanned (listUpstreamReporterOf w status s) = false := by
  intro l
  induction l with
  | nil => intro status has _ s hs; cases hs
  | cons a rest ih =>
    intro status has hfalse s hs hns
    simp only [scanPassAux] at hfalse
    by_cases h1 : status a == .scanned
    · rw [if_pos h1] at hfalse
      rcases List.mem_cons.mp hs with hh | hh
      · subst hh
        exact absurd (by simpa using h1) hns
      · exact ih status has hfalse s hh hns
    · rw [if_neg h1] at hfalse
      by_cases h2 : isAllDependeeScanned (listUpstreamReporterOf w status a)
      · rw [if_pos h2] at hfalse
        rw [scanPassAux_has_true w rest _] at hfalse
        cases hfalse
      · rw [if_neg h2] at hfalse
        rcases List.mem_cons.mp hs with hh | hh
        · subst hh
          simpa using h2
        · exact ih status has hfalse s hh hns

theorem countP_lt_of_witness {α : Type} (p q : α → Bool) :
    ∀ (l : List α), (∀ a ∈ l, p a = true → q a = true) →
      ∀ a ∈ l, p a = false → q a = true → l.countP p < l.countP q := by
  intro l
  induction l with
  | nil => intro _ a ha; cases ha
  | cons b bs ih =>
    intro hmono a ha hpa hqa
    have hmono' : ∀ x ∈ bs, p x = true → q x = true := by
      intro x hx
      exact hmono x (List.mem_cons.mpr (Or.inr hx))
    have hle : bs.countP p ≤ bs.countP q := List.countP_mono_left hmono'
    rcases List.mem_cons.mp ha with hh | hh
    · subst hh
      rw [List.countP_cons, List.countP_cons, hpa, hqa]
      simp only [Bool.false_eq_true, if_false, if_true, Nat.add_zero]
      omega
    · have hlt := ih hmono' a hh hpa hqa
      rw [List.countP_cons, List.countP_cons]
      by_cases hpb : p b = true
      · rw [hpb, hmono b (List.mem_cons.mpr (Or.inl rfl)) hpb]
        omega
      · rw [Bool.not_eq_true] at hpb
        rw [hpb]
        simp only [Bool.false_eq_true, if_false, Nat.add_zero]
        by_cases hqb : q b = true
        · rw [hqb]; omega
        · rw [Bool.not_eq_true] at hqb
          rw [hqb]
          simp only [Bool.false_eq_true, if_false, Nat.add_zero]
          omega

theorem cntScanned_mono (w : Workflow) {status status' : Nat → StepStatus}
    (h : ∀ t, status t = .scanned → status' t = .scanned) :
    cntScanned w status ≤ cntScanned w status' := by
  apply List.countP_mono_left
  intro s _ hs
  have := h s (by simpa using hs)
  simpa using this

theorem scanPassAux_progress (w : Workflow) :
    ∀ (l : List Nat) (status : Nat → StepStatus),
      (∀ s ∈ l, s ∈ w.steps) →
      (scanPassAux w l status false).2 = true →
      cntScanned w status < cntScanned w ((scanPassAux w l status false).1) := by
  intro l
  induction l with
  | nil => intro status _ htrue; cases htrue
  | cons a rest ih =>
    intro status hsub htrue
    simp only [scanPassAux] at htrue ⊢
    by_cases h1 : status a == .scanned
    · rw [if_pos h1] at htrue ⊢
      exact ih status (fun s hs => hsub s (List.mem_cons.mpr (Or.inr hs))) htrue
    · rw [if_neg h1] at htrue ⊢
      by_cases h2 : isAllDependeeScanned (listUpstreamReporterOf w status a)
      · rw [if_pos h2]
        have hstrict : cntScanned w status <
            cntScanned w (updateStatus status a .scanned) := by
          apply countP_lt_of_witness _ _ w.steps
          · intro t _ hp
            simp only [beq_iff_eq] at hp ⊢
            simp only [updateStatus]
            by_cases hta : t = a
            · rw [if_pos hta]
            · rw [if_neg hta]; exact hp
          · exact hsub a (List.mem_cons.mpr (Or.inl rfl))
          · simpa using h1
          · simp [updateStatus]
        have hge : cntScanned w (updateStatus status a .scanned) ≤
            cntScanned w ((scanPassAux w rest (updateStatus status a .scanned) true).1) := by
          apply cntScanned_mono
          intro t ht
          exact scanPassAux_mono w rest _ true t ht
        omega
      · rw [if_neg h2] at htrue ⊢
        exact ih status (fun s hs => hsub s (List.mem_cons.mpr (Or.inr hs))) htrue

theorem scanLoop_zone (w : Workflow) :
    ∀ (fuel : Nat) (status : Nat → StepStatus) (t : Nat),
      scanLoop w fuel status t = .scanned ∨ scanLoop w fuel status t = status t := by
  intro fuel
  induction fuel with
  | zero => intro status t; exact Or.inr rfl
  | succ f ih =>
    intro status t
    simp only [scanLoop]
    by_cases h : (scanPass w status).2
    · rw [if_pos h]
      rcases ih (scanPass w status).1 t with hh | hh
      · exact Or.inl hh
      · rw [hh]
        exact scanPassAux_zone w w.steps status false t
    · rw [if_neg h]
      exact scanPassAux_zone w w.steps status false t

theorem scanLoop_fixpoint (w : Workflow) :
    ∀ (fuel : Nat) (status : Nat → StepStatus),
      w.steps.length + 1 ≤ fuel + cntScanned w status →
      (scanPass w (scanLoop w fuel status)).2 = false := by
  intro fuel
  induction fuel with
  | zero =>
    intro status hf
    exfalso
    have : cntScanned w status ≤ w.steps.length := List.countP_le_length _
    omega
  | succ f ih =>
    intro status hf
    simp only [scanLoop]
    by_cases h : (scanPass w status).2
    · rw [if_pos h]
      apply ih
      have := scanPassAux_progress w w.steps status (fun s hs => hs) h
      unfold scanPass
      omega
    · rw [if_neg h]
      have hid : (scanPass w status).1 = status :=
        scanPassAux_false_id w w.steps status false (by simpa using h)
      rw [hid]
      simpa using h

theorem stepsInCycle_mem {w : Workflow} {status : Nat → StepStatus}
    {s : Nat} {us : List Nat} :
    (s, us) ∈ stepsInCycle w status ↔
      s ∈ w.steps ∧ ¬ status s = .scanned ∧
      us = ((w.links s).filterMap Link.dependee).filter
        (fun u => !(status u == .scanned)) ∧
      us ≠ [] := by
  unfold stepsInCycle
  rw [List.mem_filterMap]
  constructor
  · rintro ⟨t, ht, hf⟩
    by_cases h1 : status t == .scanned
    · rw [if_pos h1] at hf; cases hf
    · rw [if_neg h1] at hf
      by_cases h2 : (((w.links t).filterMap Link.dependee).filter
          (fun u => !(status u == .scanned))).isEmpty
      · rw [if_pos h2] at hf; cases hf
      · rw [if_neg h2] at hf
        have hpair := Option.some.inj hf
        have hts : t = s := congrArg Prod.fst hpair
        have hus : ((w.links t).filterMap Link.dependee).filter
            (fun u => !(status u == .scanned)) = us := congrArg Prod.snd hpair
        subst hts
        refine ⟨ht, by simpa using h1, hus.symm, ?_⟩
        intro hnil
        rw [hnil] at hus
        exact h2 (by rw [hus]; rfl)
  · rintro ⟨hs, hns, hus, hne⟩
    refine ⟨s, hs, ?_⟩
    rw [if_neg (by simpa using hns)]
    have hemp : (((w.links s).filterMap Link.dependee).filter
        (fun u => !(status u == .scanned))).isEmpty = false := by
      rw [← hus]
      cases hl : us with
      | nil => exact absurd hl hne
      | cons a as => rfl
    rw [if_neg (by simp [hemp])]
    rw [← hus]

theorem preflight_cycle_eq {w : Workflow} {st : WState}
    (hErr : st.errs = none)
    (hPend : ∀ s ∈ w.steps, st.status s = .pending)
    (hcyc : stepsInCycle w (scanLoop w (w.steps.length + 1) st.status) ≠ []) :
    preflight w st =
      ({ st with status := scanLoop w (w.steps.length + 1) st.status },
        some (RunErr.cycleDependency
          (stepsInCycle w (scanLoop w (w.steps.length + 1) st.status)))) := by
  have hunex : w.steps.filter (fun s => !(st.status s == .pending)) = [] := by
    rw [List.filter_eq_nil_iff]
    intro s hs
    simp [hPend s hs]
  have hcycE : (stepsInCycle w (scanLoop w (w.steps.length + 1) st.status)).isEmpty
      = false := by
    cases hc : stepsInCycle w (scanLoop w (w.steps.length + 1) st.status) with
    | nil => exact absurd hc hcyc
    | cons a as => rfl
  simp only [preflight, hErr, Option.isSome_none, Bool.false_eq_true, if_false, hunex,
    List.isEmpty_nil, Bool.not_true, hcycE, Bool.not_false, if_true]

/-- Every step left non-Scanned by the converged scan still has some
non-Scanned upstream. -/
theorem scanLoop_unscanned_has_unscanned_up {w : Workflow} {g : Nat → StepStatus}
    (s : Nat) (hs : s ∈ w.steps)
    (hns : ¬ scanLoop w (w.steps.length + 1) g s = .scanned) :
    ((w.links s).filterMap Link.dependee).filter
      (fun u => !(scanLoop w (w.steps.length + 1) g u == .scanned)) ≠ [] := by
  have hfix := scanLoop_fixpoint w (w.steps.length + 1) g (by omega)
  have hno := scanPassAux_false_noNew w w.steps
    (scanLoop w (w.steps.length + 1) g) false hfix s hs hns
  intro hnil
  have : isAllDependeeScanned
      (listUpstreamReporterOf w (scanLoop w (w.steps.length + 1) g) s)
      = true := by
    unfold isAllDependeeScanned listUpstreamReporterOf
    rw [List.all_eq_true]
    intro x hx
    rw [List.mem_map] at hx
    obtain ⟨u, hu, hux⟩ := hx
    have hu_not : (scanLoop w (w.steps.length + 1) g u == .scanned) = true := by
      by_contra hcon
      have : u ∈ ((w.links s).filterMap Link.dependee).filter
          (fun u => !(scanLoop w (w.steps.length + 1) g u == .scanned)) := by
        rw [List.mem_filter]
        exact ⟨hu, by simp at hcon ⊢; simp [hcon]⟩
      rw [hnil] at this
      cases this
    rw [← hux]
    simpa using hu_not
  rw [this] at hno
  cases hno

/-- C3 (amended): on a cyclic graph preflight returns `CycleDependency`
mapping exactly the steps that were not marked Scanned (each with its
non-Scanned upstreams, of which there is at least one), but the statuses
are not reset: preflight returns before the reset loop, so steps marked
Scanned during the scan keep the private Scanned status and only the
remaining steps are still Pending. -/
theorem c3_cycle_not_reset {w : Workflow} {st : WState}
    (hErr : st.errs = none)
    (hPend : ∀ s ∈ w.steps, st.status s = .pending)
    (hCyc : ∃ s ∈ w.steps, ¬ scanLoop w (w.steps.length + 1) st.status s = .scanned) :
    ∃ m, (preflight w st).2 = some (RunErr.cycleDependency m) ∧
      (∀ s ∈ w.steps,
        ((∃ us, (s, us) ∈ m) ↔ ¬ (preflight w st).1.status s = .scanned)) ∧
      (∀ s us, (s, us) ∈ m →
        us ≠ [] ∧
        us = ((w.links s).filterMap Link.dependee).filter
          (fun u => !((preflight w st).1.status u == .scanned))) ∧
      (∀ s ∈ w.steps, (preflight w st).1.status s = .scanned ∨
        (preflight w st).1.status s = .pending) := by
  obtain ⟨s0, hs0, hns0⟩ := hCyc
  have hkey := scanLoop_unscanned_has_unscanned_up s0 hs0 hns0
  have hmem0 : (s0, ((w.links s0).filterMap Link.dependee).filter
      (fun u => !(scanLoop w (w.steps.length + 1) st.status u == .scanned)))
      ∈ stepsInCycle w (scanLoop w (w.steps.length + 1) st.status) := by
    rw [stepsInCycle_mem]
    exact ⟨hs0, hns0, rfl, hkey⟩
  have hcycne : stepsInCycle w (scanLoop w (w.steps.length + 1) st.status) ≠ [] :=
    List.ne_nil_of_mem hmem0
  have hpre := preflight_cycle_eq hErr hPend hcycne
  refine ⟨stepsInCycle w (scanLoop w (w.steps.length + 1) st.status), ?_, ?_, ?_, ?_⟩
  · rw [hpre]
  · intro s hs
    rw [hpre]
    constructor
    · rintro ⟨us, hus⟩
      exact (stepsInCycle_mem.mp hus).2.1
    · intro hns
      exact ⟨_, stepsInCycle_mem.mpr ⟨hs, hns, rfl,
        scanLoop_unscanned_has_unscanned_up s hs hns⟩⟩
  · intro s us hus
    rw [hpre]
    obtain ⟨_, _, husq, hne⟩ := stepsInCycle_mem.mp hus
    exact ⟨hne, husq⟩
  · intro s hs
    rw [hpre]
    show scanLoop w (w.steps.length + 1) st.status s = .scanned ∨
      scanLoop w (w.steps.length + 1) st.status s = .pending
    rcases scanLoop_zone w (w.steps.length + 1) st.status s with h | h
    · exact Or.inl h
    · rw [h]
      exact Or.inr (hPend s hs)

/-- A state with the error map of a run whose only step Succeeded: one
entry, with a nil error. -/
def stC9 : WState :=
  { status := fun _ => .succeeded, errs := some [(0, none)] }

/-- C9 counterexample: the error map holds one entry (step 0, nil error),
yet `Err()` returns nil, because `Err` returns nil whenever `IsNil` holds
and `IsNil` only looks at the values. The claim that `Err()` never
returns a nil-typed error while any entry exists is therefore false. -/
theorem c9_counterexample :
    stC9.errs = some [(0, (none : Option GoErr))] ∧
    (stC9.errs.getD []).length = 1 ∧
    Err stC9 = none := by
  refine ⟨rfl, rfl, rfl⟩

/-- C9 (amended): `Err()` returns nil exactly when every recorded error
is nil — including when entries exist whose value is nil — and returns
the (non-nil) error map exactly when some entry holds a non-nil error;
callers must therefore use the `IsNil` predicate rather than comparing
`Err()`'s result with nil. -/
theorem c9_err_is_nil {st : WState} {l : List (Nat × Option GoErr)}
    (h : st.errs = some l) :
    (Err st = none ↔ errWorkflowIsNil l = true) ∧
    (errWorkflowIsNil l = false → Err st = some l) := by
  by_cases hnil : errWorkflowIsNil l = true
  · have hE : Err st = none := by simp [Err, h, errsIsNil, hnil]
    refine ⟨by simp [hE, hnil], fun hcon => ?_⟩
    rw [hnil] at hcon
    cases hcon
  · have hnil2 : errWorkflowIsNil l = false := by
      rw [Bool.not_eq_true] at hnil
      exact hnil
    have hE : Err st = some l := by simp [Err, h, errsIsNil, hnil2]
    refine ⟨by simp [hE, hnil2], fun _ => hE⟩

/-- Witness for C9's amended statement at a concrete state: one failed
entry; `Err` returns the map. -/
theorem c9_err_is_nil_witness :
    Err { status := fun _ => StepStatus.failed,
          errs := some [(0, some (GoErr.base 1))] }
      = some [(0, some (GoErr.base 1))] := by
  have h := @c9_err_is_nil
    { status := fun _ => StepStatus.failed,
      errs := some [(0, some (GoErr.base 1))] }
    [(0, some (GoErr.base 1))] rfl
  exact h.2 (by decide)

/-- The all-Pending, never-run initial state of a workflow. -/
def stAllPending : WState :=
  { status := fun _ => .pending, errs := none }

/-- A three-step workflow: step 0 independent, steps 1 and 2 in a
two-cycle. -/
def w3 : Workflow :=
  { steps := [0, 1, 2],
    links := fun s =>
      if s = 1 then [{ dependee := some 2, hasFlow := false }]
      else if s = 2 then [{ dependee := some 1, hasFlow := false }]
      else [],
    getCondition := fun _ => none,
    getWhen := fun _ => none,
    getRetry := fun _ => none,
    when := none,
    flowRes := fun _ _ _ => ExecResult.ok,
    doRes := fun _ _ => ExecResult.ok }

/-- C3 counterexample: on `w3` preflight does return `CycleDependency`
mapping steps 1 and 2 to their non-Scanned upstreams, but step 0 — which
the scan marked Scanned — is left in the private Scanned status, not
reset to Pending, refuting the claim that after preflight every step is
Pending again. -/
theorem c3_counterexample :
    (preflight w3 stAllPending).2
        = some (RunErr.cycleDependency [(1, [2]), (2, [1])]) ∧
      (preflight w3 stAllPending).1.status 0 = .scanned ∧
      ¬ (preflight w3 stAllPending).1.status 0 = .pending := by
  refine ⟨by decide, by decide, by decide⟩

/-- Witness for the amended C3 at the concrete cyclic workflow `w3`. -/
theorem c3_cycle_not_reset_witness :
    ∃ m, (preflight w3 stAllPending).2 = some (RunErr.cycleDependency m) ∧
      (∀ s ∈ w3.steps,
        ((∃ us, (s, us) ∈ m) ↔ ¬ (preflight w3 stAllPending).1.status s = .scanned)) := by
  obtain ⟨m, h1, h2, _, _⟩ := @c3_cycle_not_reset w3 stAllPending
    rfl (by decide) ⟨1, by decide, by decide⟩
  exact ⟨m, h1, h2⟩

/-- The retry scenario workflow: one lone step 0 whose `Do` fails on its
first 4 invocations and returns nil on the 5th, with
`RetryOption{MaxCount: 10}`. -/
def w6 : Workflow :=
  { steps := [0],
    links := fun _ => [],
    getCondition := fun _ => none,
    getWhen := fun _ => none,
    getRetry := fun _ => some { MaxCount := 10, StopIf := none },
    when := none,
    flowRes := fun _ _ _ => ExecResult.ok,
    doRes := fun _ n => if n < 4 then ExecResult.err (GoErr.base 0) else ExecResult.ok }

theorem c6_runStep (status : Nat → StepStatus) :
    runStep w6 status 0 = (none, 5) := rfl

/-- The invariant along any scheduler execution of `w6`: step 0 is
Pending or Running with an empty error map, or Succeeded with the single
nil-valued entry. -/
def c6P (st : WState) : Prop :=
  (st.status 0 = .pending ∧ st.errs = some []) ∨
  (st.status 0 = .running ∧ st.errs = some []) ∨
  (st.status 0 = .succeeded ∧ st.errs = some [(0, none)])

theorem c6_exec_inv {st stF : WState} {evs : List Ev}
    (hexec : Exec w6 0 st evs stF) (hP : c6P st) : c6P stF := by
  induction hexec with
  | nil => exact hP
  | @cons st st' st'' e evs h hrest ih =>
    apply ih
    cases h with
    | @cancel t hmem hp hu hc =>
      exfalso
      have ht : t = 0 := by simpa [w6] using hmem
      subst ht
      have hup : listUpstreamReporterOf w6 st.status 0 = [] := rfl
      rw [hup] at hc
      exact absurd hc (by decide)
    | @skipEv t hmem hp hu hc hw =>
      exfalso
      have ht : t = 0 := by simpa [w6] using hmem
      subst ht
      exact absurd hw (by decide)
    | @launch t hmem hp hu hc hw =>
      have ht : t = 0 := by simpa [w6] using hmem
      subst ht
      rcases hP with ⟨h1, h2⟩ | ⟨h1, h2⟩ | ⟨h1, h2⟩
      · refine Or.inr (Or.inl ⟨?_, h2⟩)
        simp [setStatus, updateStatus]
      · rw [h1] at hp; cases hp
      · rw [h1] at hp; cases hp
    | @finish t l hmem hr he =>
      have ht : t = 0 := by simpa [w6] using hmem
      subst ht
      rcases hP with ⟨h1, h2⟩ | ⟨h1, h2⟩ | ⟨h1, h2⟩
      · rw [h1] at hr; cases hr
      · have hl : l = [] := by
          rw [h2] at he
          exact (Option.some.inj he).symm
        subst hl
        refine Or.inr (Or.inr ⟨?_, ?_⟩)
        · show updateStatus st.status 0
              (if (runStep w6 st.status 0).1.isSome then .failed else .succeeded) 0 = _
          rw [c6_runStep]
          simp [updateStatus]
        · show some (setEntry [] 0 (runStep w6 st.status 0).1) = _
          rw [c6_runStep]
          rfl
      · rw [h1] at hr; cases hr

/-- C6: with `RetryOption{MaxCount: 10}` on a step whose `Do` fails the
first 4 invocations and returns nil on the 5th, the retry harness stops
at the first nil — `Do` is invoked exactly 5 times and the recorded
error is nil — and every `Run` of this workflow ends with the step
Succeeded and returns nil. -/
theorem c6_retry_bounded :
    (∀ status : Nat → StepStatus, runStep w6 status 0 = (none, 5)) ∧
    (∀ (stF : WState) (ret : Option RunErr),
      RunRel w6 0 stAllPending stF ret →
      ret = none ∧ stF.status 0 = .succeeded) := by
  refine ⟨c6_runStep, ?_⟩
  intro stF ret h
  cases h with
  | whenFalse hf hc => exact Option.noConfusion hf
  | preflightFail hok hpre =>
    have : (preflight w6 stAllPending).2 = none := by decide
    rw [this] at hpre
    cases hpre
  | completed hok hpre hexec hterm =>
    have hP0 : c6P (initErrs (preflight w6 stAllPending).1) := by
      exact Or.inl ⟨by decide, rfl⟩
    have hPF := c6_exec_inv hexec hP0
    have hterm0 : (stF.status 0).IsTerminated = true := by
      have := List.all_eq_true.mp hterm
      exact this 0 (by simp [w6])
    rcases hPF with ⟨h1, h2⟩ | ⟨h1, h2⟩ | ⟨h1, h2⟩
    · rw [h1] at hterm0
      exact absurd hterm0 (by decide)
    · rw [h1] at hterm0
      exact absurd hterm0 (by decide)
    · refine ⟨?_, h1⟩
      simp [runReturn, h2, errsIsNil, errWorkflowIsNil]

/-- A complete two-event execution of `w6`'s scheduler loop: launch step
0, then its task finishes. -/
theorem w6_exec :
    ∃ stF : WState,
      Exec w6 0 (initErrs (preflight w6 stAllPending).1) [Ev.launch 0, Ev.finish 0] stF ∧
      IsTerminatedB w6 stF = true := by
  refine ⟨_, Exec.cons
      (EvStep.launch (by decide) (by decide) (by decide) (by decide) (by decide))
      (Exec.cons (EvStep.finish (l := []) (by decide) (by decide) rfl) Exec.nil), ?_⟩
  decide

/-- Witness for C6 at the concrete run of `w6`. -/
theorem c6_retry_bounded_witness :
    ∃ (stF : WState) (ret : Option RunErr),
      RunRel w6 0 stAllPending stF ret ∧ ret = none ∧ stF.status 0 = .succeeded := by
  obtain ⟨stF, hexec, hterm⟩ := w6_exec
  have hrun : RunRel w6 0 stAllPending stF (runReturn stF) :=
    RunRel.completed (fun f hf => Option.noConfusion hf) (by decide) hexec hterm
  have h := c6_retry_bounded.2 stF (runReturn stF) hrun
  exact ⟨stF, runReturn stF, hrun, h.1, h.2⟩

/-- Witness for C2 at the concrete run of `w6`: the terminated state has
an entry for step 0 if and only if step 0 was launched (it was). -/
theorem c2_error_map_witness :
    ∃ (stF : WState) (evs : List Ev),
      Exec w6 0 (initErrs (preflight w6 stAllPending).1) evs stF ∧
      (entryB stF 0 = true ↔ Ev.launch 0 ∈ evs) := by
  obtain ⟨stF, hexec, hterm⟩ := w6_exec
  exact ⟨stF, _, hexec,
    (c2_error_map (by decide) rfl hexec hterm 0 (by decide)).1⟩

/-- Witness for C7 at the concrete run of `w6`. -/
theorem c7_state_machine_witness :
    ∃ (stF : WState) (evs : List Ev),
      Exec w6 0 (initErrs (preflight w6 stAllPending).1) evs stF ∧
      evs.countP (leavesPendingB 0) ≤ 1 ∧ evs.count (Ev.launch 0) ≤ 1 := by
  obtain ⟨stF, hexec, _⟩ := w6_exec
  have h := c7_state_machine (by decide) hexec 0
  exact ⟨stF, _, hexec, h.1, h.2.1⟩

/-- A one-step workflow whose workflow-level When always refuses. -/
def w5 : Workflow :=
  { steps := [0],
    links := fun _ => [],
    getCondition := fun _ => none,
    getWhen := fun _ => none,
    getRetry := fun _ => none,
    when := some (fun _ => false),
    flowRes := fun _ _ _ => ExecResult.ok,
    doRes := fun _ _ => ExecResult.ok }

/-- Witness for C5 at the concrete workflow `w5`. -/
theorem c5_workflow_when_witness :
    ∃ (stF : WState) (ret : Option RunErr),
      RunRel w5 0 stAllPending stF ret ∧ ret = none ∧ stF.status 0 = .skipped := by
  have hrun : RunRel w5 0 stAllPending (skipAllState w5 stAllPending) none :=
    RunRel.whenFalse rfl rfl
  have h := c5_workflow_when rfl rfl hrun
  exact ⟨_, _, hrun, h.1, h.2.1 0 (by simp [w5])⟩

/-- A one-step workflow whose workflow-level When accepts only context 1. -/
def w10 : Workflow :=
  { steps := [0],
    links := fun _ => [],
    getCondition := fun _ => none,
    getWhen := fun _ => none,
    getRetry := fun _ => none,
    when := some (fun c => c == 1),
    flowRes := fun _ _ _ => ExecResult.ok,
    doRes := fun _ _ => ExecResult.ok }

/-- Witness for C10 at the concrete workflow `w10`: first run with
context 0 (predicate false) returns nil; second run with context 1
(predicate true) fails with `ErrUnexpectStepInitStatus`, not
`ErrWorkflowHasRun`. -/
theorem c10_second_run_witness :
    ∃ (st1 st2 : WState) (r1 r2 : Option RunErr),
      RunRel w10 0 stAllPending st1 r1 ∧ RunRel w10 1 st1 st2 r2 ∧
      r1 = none ∧ r2 = some (RunErr.unexpectStepInitStatus w10.steps) := by
  have hr1 : RunRel w10 0 stAllPending (skipAllState w10 stAllPending) none :=
    RunRel.whenFalse rfl rfl
  have hsk : ∀ s ∈ w10.steps, (skipAllState w10 stAllPending).status s = .skipped := by
    intro s hs
    simp [skipAllState, hs]
  have hpre := @preflight_allSkipped w10 (skipAllState w10 stAllPending)
    (by simp [w10]) rfl hsk
  have hok1 : wfWhenOk w10 1 := by
    intro f hf
    have hff := Option.some.inj hf
    rw [← hff]
    rfl
  have hr2 : RunRel w10 1 (skipAllState w10 stAllPending)
      (preflight w10 (skipAllState w10 stAllPending)).1
      (some (RunErr.unexpectStepInitStatus w10.steps)) :=
    RunRel.preflightFail hok1 (by rw [hpre])
  have hw10 : w10.when = some (fun c : Ctx => c == 1) := rfl
  have hb : ((fun c : Ctx => c == 1) 0) = false := rfl
  have h := c10_second_run hw10 (by simp [w10]) rfl hb hr1 hr2
  exact ⟨_, _, _, _, hr1, hr2, h.1, h.2.2.2 rfl⟩

end FL
